import Mathlib

set_option maxRecDepth 1000000
set_option maxHeartbeats 2000000

/-!
# Verification of the allergen detection/classification engine

Shallow embedding of `src/allergy_app/utils/allergens.py`.

Modelling conventions:
* Text is a list of Unicode code points (`List Nat`); `chars` converts a Lean
  string literal.  Case folding (`str.lower`) is modelled on the ASCII range,
  matching the behaviour of the source on the ASCII texts the claims concern.
* Python floats are modelled as `ℚ`.  Every confidence the engine manipulates
  is of the form `1`, `9/10`, or `2*M/(la+lb)` with `M, la, lb` small naturals,
  and the only comparisons are against `17/20`; at these magnitudes rational
  and double-precision comparison agree, so the model is exact.
* `re.search(r"\b<kw>\b", text, re.IGNORECASE)` (keywords contain only
  lowercase letters and spaces, so the escaping loop in
  `_build_keyword_patterns` is the identity; see `catalog_keywords_plain`)
  is modelled by `reSearchWord`: an occurrence of the keyword bounded on both
  sides by the string edge or a non-word character (word characters are
  alphanumerics and underscore, Python's `\w` on ASCII).  All search calls in
  the source receive already-lowercased text, so `IGNORECASE` is inert.
* `difflib.SequenceMatcher(None, a, b).ratio()` is modelled by `fuzzy_ratio`:
  the recursive longest-matching-block total (`matchTotal`), with the same
  scan order and tie-breaking as difflib's `find_longest_match` (autojunk
  never applies: all compared strings are far shorter than 200 characters).
* Python `set` iteration order is unspecified (hash-randomised).  The one
  place the source iterates a set (`grams` in the fuzzy phase) is modelled by
  a duplicate-free list in first-construction order.
-/

/-- Text: a list of Unicode code points. -/
abbrev Str := List Nat

/-- Code points of a Lean string literal. -/
def chars (s : String) : Str := s.data.map Char.toNat

/-- `ALLERGEN_KEYWORDS`: the static catalog, in source (insertion) order. -/
def ALLERGEN_KEYWORDS : List (Str × List Str) :=
  [ (chars "nuts",
      [chars "almond", chars "cashew", chars "hazelnut", chars "macadamia",
       chars "peanut", chars "pecan", chars "pistachio", chars "walnut",
       chars "nut", chars "praline", chars "marzipan", chars "nougat"]),
    (chars "dairy",
      [chars "milk", chars "butter", chars "cheese", chars "cream",
       chars "yogurt", chars "lactose", chars "whey", chars "casein",
       chars "ghee", chars "yoghurt", chars "dairy", chars "lactate",
       chars "lactalbumin"]),
    (chars "gluten",
      [chars "wheat", chars "barley", chars "rye", chars "oats",
       chars "flour", chars "bread", chars "pasta", chars "cereal",
       chars "gluten", chars "semolina", chars "spelt", chars "kamut",
       chars "bulgur", chars "couscous"]),
    (chars "eggs",
      [chars "egg", chars "albumin", chars "albumen", chars "globulin",
       chars "lecithin", chars "livetin", chars "lysozyme",
       chars "mayonnaise", chars "meringue", chars "ovalbumin",
       chars "ovomucin"]),
    (chars "soy",
      [chars "soy", chars "soya", chars "soybean", chars "tofu",
       chars "tempeh", chars "miso", chars "edamame", chars "shoyu",
       chars "tamari", chars "textured vegetable protein"]),
    (chars "shellfish",
      [chars "shrimp", chars "crab", chars "lobster", chars "crayfish",
       chars "prawn", chars "scampi", chars "shellfish", chars "crustacean",
       chars "mollusc", chars "oyster", chars "clam", chars "mussel"]),
    (chars "fish",
      [chars "fish", chars "anchovy", chars "bass", chars "cod",
       chars "flounder", chars "haddock", chars "halibut", chars "herring",
       chars "mackerel", chars "salmon", chars "sardine", chars "tuna",
       chars "tilapia"]),
    (chars "sesame",
      [chars "sesame", chars "tahini", chars "sesamol", chars "gingelly",
       chars "benne"]),
    (chars "sulfites",
      [chars "sulfite", chars "sulphite", chars "sulfur dioxide",
       chars "sulphur dioxide", chars "metabisulfite",
       chars "metabisulphite"]),
    (chars "mustard",
      [chars "mustard", chars "senf", chars "moutarde"]) ]

/-- ASCII whitespace, the characters `str.split()` splits on. -/
def isPySpace (c : Nat) : Bool :=
  c == 32 || c == 9 || c == 10 || c == 13 || c == 12 || c == 11

/-- `str.lower()` on the ASCII range. -/
def toLowerN (c : Nat) : Nat := if 65 ≤ c ∧ c ≤ 90 then c + 32 else c

def lowerStr (s : Str) : Str := s.map toLowerN

/-- Split a string into the maximal runs of characters NOT satisfying `sep`,
discarding empty runs (the shared shape of `str.split()` and
`re.split(r"[^a-z0-9]+", ...)` followed by the truthiness filter). -/
def splitOnSepAux (sep : Nat → Bool) : Str → Str → List Str
  | [], acc => if acc.isEmpty then [] else [acc.reverse]
  | c :: rest, acc =>
    if sep c then
      if acc.isEmpty then splitOnSepAux sep rest []
      else acc.reverse :: splitOnSepAux sep rest []
    else splitOnSepAux sep rest (c :: acc)

def splitOnSep (sep : Nat → Bool) (s : Str) : List Str := splitOnSepAux sep s []

/-- `" ".join(words)`. -/
def joinSpace : List Str → Str
  | [] => []
  | [w] => w
  | w :: ws => w ++ 32 :: joinSpace ws

/-- `_normalize_text`: `"" if not text else " ".join(text.lower().split())`. -/
def _normalize_text : Option Str → Str
  | none => []
  | some s => if s.isEmpty then [] else joinSpace (splitOnSep isPySpace (lowerStr s))

/-- Characters kept by `_tokenize`'s splitting regex `[^a-z0-9]+`. -/
def isTokChar (c : Nat) : Bool := (97 ≤ c && c ≤ 122) || (48 ≤ c && c ≤ 57)

/-- `_tokenize`: split `text.lower()` on runs of non-`[a-z0-9]`, drop empties. -/
def _tokenize (s : Str) : List Str := splitOnSep (fun c => !isTokChar c) (lowerStr s)

/-- `_ngram`: `" ".join(tokens[i:i+n])` for `i in range(len(tokens)-n+1)`. -/
def _ngram (tokens : List Str) (n : Nat) : List Str :=
  (List.range (tokens.length + 1 - n)).map fun i => joinSpace ((tokens.drop i).take n)

/-- Word characters for Python's `\b` on ASCII: `[A-Za-z0-9_]`. -/
def isWordCharN (c : Nat) : Bool :=
  (97 ≤ c && c ≤ 122) || (48 ≤ c && c ≤ 57) || (65 ≤ c && c ≤ 90) || c == 95

/-- The keyword occurs literally at position `i`. -/
def matchAt (needle text : Str) (i : Nat) : Bool :=
  (text.drop i).take needle.length == needle

/-- `\b<kw>\b` matches at position `i`: literal occurrence whose two ends are
word-boundaries.  Catalog keywords begin and end with a letter, so `\b` there
demands the adjacent character (if any) be a non-word character. -/
def boundedAt (kw text : Str) (i : Nat) : Bool :=
  matchAt kw text i
    && (i == 0 || !isWordCharN (text.getD (i - 1) 0))
    && (i + kw.length == text.length || !isWordCharN (text.getD (i + kw.length) 0))

/-- `re.search` of the word-bounded keyword pattern: some position matches. -/
def reSearchWord (kw text : Str) : Bool :=
  (List.range (text.length + 1)).any (boundedAt kw text)

/-! ## `difflib.SequenceMatcher` -/

/-- Length of the longest common prefix of two strings. -/
def commPrefLen : Str → Str → Nat
  | x :: xs, y :: ys => if x == y then commPrefLen xs ys + 1 else 0
  | _, _ => 0

/-- The DP cell `j2len[j]` of difflib's `find_longest_match` at row `i`:
the length of the longest common run of equal characters ending at `a[i]`
and `b[j]`, i.e. the longest common suffix of `a[:i+1]` and `b[:j+1]`
(difflib maintains this incrementally as `j2len[j] = j2lenget(j-1, 0) + 1`). -/
def cellRun (a b : Str) (i j : Nat) : Nat :=
  commPrefLen ((a.take (i + 1)).reverse) ((b.take (j + 1)).reverse)

/-- Main loop of `find_longest_match`: `i` ascending over `a`, `j` ascending
over `b`, replacing the running best block exactly when the cell's run length
strictly exceeds it — difflib's
`if k > bestsize: besti, bestj, bestsize = i-k+1, j-k+1, k`
(difflib visits only the `j` with `b[j] = a[i]`, via its `b2j` index; at every
other `j` the cell is `0`, which never beats the running best). -/
def flmBest (a b : Str) : Nat × Nat × Nat :=
  (List.range a.length).foldl
    (fun besti i =>
      (List.range b.length).foldl
        (fun best j =>
          if b.getD j 0 == a.getD i 0 then
            let k := cellRun a b i j
            if k > best.2.2 then (i + 1 - k, j + 1 - k, k) else best
          else best)
        besti)
    (0, 0, 0)

/-- difflib's trailing extension loop for non-junk elements: while the block
can absorb an equal character on the left, do so.  (With no junk this is
provably a no-op, but it is kept for fidelity.) -/
def flmExtLeft (a b : Str) : Nat → Nat × Nat × Nat → Nat × Nat × Nat
  | 0, st => st
  | fuel + 1, (bi, bj, bk) =>
    if 0 < bi && 0 < bj && a.getD (bi - 1) 0 == b.getD (bj - 1) 0 then
      flmExtLeft a b fuel (bi - 1, bj - 1, bk + 1)
    else (bi, bj, bk)

/-- difflib's forward extension loop (see `flmExtLeft`). -/
def flmExtRight (a b : Str) : Nat → Nat × Nat × Nat → Nat × Nat × Nat
  | 0, st => st
  | fuel + 1, (bi, bj, bk) =>
    if bi + bk < a.length && bj + bk < b.length
        && a.getD (bi + bk) 0 == b.getD (bj + bk) 0 then
      flmExtRight a b fuel (bi, bj, bk + 1)
    else (bi, bj, bk)

/-- `find_longest_match` over the whole of `a` and `b` (no junk). -/
def find_longest_match (a b : Str) : Nat × Nat × Nat :=
  let st := flmBest a b
  flmExtRight a b a.length (flmExtLeft a b st.1 st)

/-- Total size of `get_matching_blocks`: recurse on both sides of the longest
match.  Fuel `a.length + b.length + 1` bounds the recursion depth (each
recursive call strictly shrinks the combined length). -/
def matchTotalGo : Nat → Str → Str → Nat
  | 0, _, _ => 0
  | fuel + 1, a, b =>
    let m := find_longest_match a b
    if m.2.2 == 0 then 0
    else
      matchTotalGo fuel (a.take m.1) (b.take m.2.1) + m.2.2 +
        matchTotalGo fuel (a.drop (m.1 + m.2.2)) (b.drop (m.2.1 + m.2.2))

def matchTotal (a b : Str) : Nat := matchTotalGo (a.length + b.length + 1) a b

/-- `fuzzy_ratio`: `2.0 * M / (len(a) + len(b))` (`1.0` when both empty). -/
def fuzzy_ratio (a b : Str) : ℚ :=
  if a.length + b.length = 0 then 1
  else mkRat (2 * matchTotal a b) (a.length + b.length)

/-! ## `detect_allergens` -/

/-- `FUZZY_THRESHOLD = 0.85`. -/
def FUZZY_THRESHOLD : ℚ := mkRat 17 20

/-- Python's binary `max` (used only on floats here). -/
def pyMax (x y : ℚ) : ℚ := if x ≤ y then y else x

/-- The advisory trigger phrase. -/
def NEEDLE : Str := chars "may contain"

/-- Result triple of `detect_allergens`.  The two sets are duplicate-free
lists (Python `set`s, insertion order); the confidence dict is a partial
map. -/
structure DetectionResult where
  direct : List Str
  mayContain : List Str
  conf : Str → Option ℚ

/-- Python `set.add`. -/
def setAdd (l : List Str) (a : Str) : List Str := if a ∈ l then l else l ++ [a]

/-- `allergen_confidence[a] = max(allergen_confidence.get(a, 0.0), q)`. -/
def confUpd (m : Str → Option ℚ) (a : Str) (q : ℚ) : Str → Option ℚ :=
  fun x => if x = a then some (pyMax ((m a).getD (mkRat 0 1)) q) else m x

/-- The empty `DetectionResult`. -/
def emptyDR : DetectionResult := ⟨[], [], fun _ => none⟩

/-- Pattern-matcher phase: for each allergen, if any keyword pattern matches
the text (`break` after the first), add to `direct` with confidence `1.0`. -/
def phase1 (text : Str) : DetectionResult :=
  ALLERGEN_KEYWORDS.foldl
    (fun st p =>
      if p.2.any (fun kw => reSearchWord kw text) then
        { st with direct := setAdd st.direct p.1, conf := confUpd st.conf p.1 1 }
      else st)
    emptyDR

/-- `text.find(needle, start)`: least index `≥ start` where `needle` occurs. -/
def findFrom (text needle : Str) (start : Nat) : Option Nat :=
  (List.range (text.length + 1)).find? fun i => start ≤ i && matchAt needle text i

/-- Collect all non-overlapping occurrences of the needle, restarting at
`idx + len(needle)`.  Each step advances `start` by at least `len NEEDLE`,
so fuel `text.length + 1` is never exhausted. -/
def occIndicesGo (text : Str) : Nat → Nat → List Nat
  | 0, _ => []
  | fuel + 1, start =>
    match findFrom text NEEDLE start with
    | none => []
    | some i => i :: occIndicesGo text fuel (i + NEEDLE.length)

def may_contain_indices (text : Str) : List Nat := occIndicesGo text (text.length + 1) 0

/-- `text[idx : idx + len(needle) + 80]`. -/
def advisoryWindow (text : Str) (idx : Nat) : Str :=
  (text.drop idx).take (NEEDLE.length + 80)

/-- Proximity-matcher phase: inside each advisory window run the same
word-bounded keyword search; hits go to `may_contain` with confidence `0.9`. -/
def phase2 (text : Str) (st0 : DetectionResult) : DetectionResult :=
  (may_contain_indices text).foldl
    (fun stw idx =>
      ALLERGEN_KEYWORDS.foldl
        (fun st p =>
          if p.2.any (fun kw => reSearchWord kw (advisoryWindow text idx)) then
            { st with mayContain := setAdd st.mayContain p.1,
                      conf := confUpd st.conf p.1 (mkRat 9 10) }
          else st)
        stw)
    st0

/-- Remove duplicates keeping first occurrences (Python's `set(...)` of the
gram list, modelling its unspecified iteration order by construction order). -/
def dedupAux : List Str → List Str → List Str
  | [], _ => []
  | x :: xs, seen => if x ∈ seen then dedupAux xs seen else x :: dedupAux xs (x :: seen)

def dedup (l : List Str) : List Str := dedupAux l []

/-- `grams = set(tokens + _ngram(tokens, 2) + _ngram(tokens, 3))`. -/
def gramsOf (tokens : List Str) : List Str :=
  dedup (tokens ++ _ngram tokens 2 ++ _ngram tokens 3)

/-- Per keyword, the fuzzy loop stops at the first gram whose ratio reaches
the threshold and records that gram's ratio. -/
def firstHit (kw : Str) (gs : List Str) : Option ℚ :=
  match gs.find? (fun g => FUZZY_THRESHOLD ≤ fuzzy_ratio kw g) with
  | some g => some (fuzzy_ratio kw g)
  | none => none

/-- Fuzzy-matcher phase (`grams` is a pure value, so recomputing it per
lookup is observationally the source's once-computed set). -/
def phase3 (text : Str) (st0 : DetectionResult) : DetectionResult :=
  ALLERGEN_KEYWORDS.foldl
    (fun sta p =>
      p.2.foldl
        (fun st kw =>
          match firstHit kw (gramsOf (_tokenize text)) with
          | some s =>
            { st with direct := setAdd st.direct p.1, conf := confUpd st.conf p.1 s }
          | none => st)
        sta)
    st0

/-- `detect_allergens` (the source binds `text = _normalize_text(...)` once;
normalization is pure, so writing it out repeatedly is the same function). -/
def detect_allergens (t : Option Str) : DetectionResult :=
  if (_normalize_text t).isEmpty then emptyDR
  else phase3 (_normalize_text t) (phase2 (_normalize_text t) (phase1 (_normalize_text t)))

/-! ## `compute_risk_level` -/

inductive RiskLevel
  | SAFE
  | WARNING
  | DANGER
deriving DecidableEq, Repr

/-- Python string comparison `<` on our code-point lists (lexicographic). -/
def lexLt : Str → Str → Bool
  | [], [] => false
  | [], _ :: _ => true
  | _ :: _, [] => false
  | a :: as_, b :: bs => if a < b then true else if b < a then false else lexLt as_ bs

/-- Insert into an ascending list (helper for `sortStr`). -/
def insertStr (x : Str) : List Str → List Str
  | [] => [x]
  | y :: ys => if lexLt y x then y :: insertStr x ys else x :: y :: ys

/-- `sorted(...)` on a duplicate-free list of strings. -/
def sortStr (l : List Str) : List Str := l.foldr insertStr []

/-- `compute_risk_level`.  `user` is `Optional` (Python `None` and `[]` are
both falsy and fall back to the empty profile); `confidences` is `Optional`
(`None` becomes the empty dict). -/
def compute_risk_level (user : Option (List Str)) (direct may_contain : List Str)
    (confidences : Option (Str → Option ℚ)) : RiskLevel × List Str :=
  let user_set : List Str := dedup ((user.getD []).map lowerStr)
  let conf : Str → Option ℚ := (confidences.getD (fun _ => none))
  let direct_hit := sortStr (user_set.filter fun a =>
    a ∈ direct ∧ a ∉ may_contain ∧ FUZZY_THRESHOLD ≤ (conf a).getD (mkRat 1 1))
  if direct_hit ≠ [] then (RiskLevel.DANGER, direct_hit)
  else
    let warning_hit := sortStr (user_set.filter fun a =>
      a ∈ may_contain ∧ FUZZY_THRESHOLD ≤ (conf a).getD (mkRat 9 10))
    if warning_hit ≠ [] then (RiskLevel.WARNING, warning_hit)
    else (RiskLevel.SAFE, [])

/-! ## Reference views of the three matching mechanisms

These definitions re-express, per allergen, what each phase of
`detect_allergens` contributes; the lemma `detect_characterization` below
proves they agree with the sequential fold in the source. -/

/-- The Pattern Matcher detects allergen `a`: some keyword of `a`'s catalog
row has a word-bounded occurrence in the text. -/
def patternHitB (text a : Str) : Bool :=
  ALLERGEN_KEYWORDS.any fun p => p.1 == a && p.2.any fun kw => reSearchWord kw text

/-- The Proximity Matcher detects allergen `a`: some advisory window contains
a word-bounded occurrence of one of `a`'s keywords. -/
def proxHitB (text a : Str) : Bool :=
  ALLERGEN_KEYWORDS.any fun p => p.1 == a &&
    (may_contain_indices text).any fun idx =>
      p.2.any fun kw => reSearchWord kw (advisoryWindow text idx)

/-- The scores the Fuzzy Matcher records for allergen `a`, in keyword order:
for each keyword, the ratio of the first gram reaching the threshold. -/
def fuzzyScores (text a : Str) : List ℚ :=
  ((ALLERGEN_KEYWORDS.filter fun p => p.1 == a).map
    fun p => p.2.filterMap fun kw => firstHit kw (gramsOf (_tokenize text))).flatten

/-- The Fuzzy Matcher detects allergen `a`. -/
def fuzzyHitB (text a : Str) : Bool := !(fuzzyScores text a).isEmpty

/-- All confidences assigned to allergen `a` by mechanisms that detected it:
`1.0` by the Pattern Matcher, `0.9` by the Proximity Matcher, and each
recorded fuzzy score. -/
def contribs (text a : Str) : List ℚ :=
  (if patternHitB text a then [(1 : ℚ)] else []) ++
    (if proxHitB text a then [mkRat 9 10] else []) ++ fuzzyScores text a

/-- Maximum of a list of confidences (`none` when no mechanism fired). -/
def maxContrib : List ℚ → Option ℚ
  | [] => none
  | q :: qs => some (qs.foldl pyMax q)

/-- Folding a list of confidence updates into an optional prior
(`conf[a] = max(conf.get(a, 0.0), q)` repeatedly). -/
def mergeFold (o : Option ℚ) (qs : List ℚ) : Option ℚ :=
  qs.foldl (fun o q => some (pyMax (o.getD (mkRat 0 1)) q)) o

/-- The scores one catalog row contributes in the fuzzy phase. -/
def rowScores (gs : List Str) (p : Str × List Str) : List ℚ :=
  p.2.filterMap fun kw => firstHit kw gs

/-- The fuzzy scores for allergen `a` over a catalog fragment `L`. -/
def scoresL (gs : List Str) (L : List (Str × List Str)) (a : Str) : List ℚ :=
  ((L.filter fun p => p.1 == a).map (rowScores gs)).flatten

/-- Validity of a candidate block `(i, j, k)`: it fits inside both strings. -/
def blockValid (a b : Str) (st : Nat × Nat × Nat) : Prop :=
  st.1 + st.2.2 ≤ a.length ∧ st.2.1 + st.2.2 ≤ b.length

/-- ASCII alphanumeric, the claim's boundary alphabet. -/
def isAlnumN (c : Nat) : Bool :=
  (97 ≤ c && c ≤ 122) || (65 ≤ c && c ≤ 90) || (48 ≤ c && c ≤ 57)

/-- Written from the claim's words (C4/C5): the keyword occurs in the text as
an exact whole word, bounded by non-ALPHANUMERIC characters or the string
edges.  The source's `\b` differs: it also treats `_` as a word character. -/
def occursWholeAlnumBounded (kw text : Str) : Bool :=
  (List.range (text.length + 1)).any fun i =>
    matchAt kw text i
      && (i == 0 || !isAlnumN (text.getD (i - 1) 0))
      && (i + kw.length == text.length || !isAlnumN (text.getD (i + kw.length) 0))

/-- Spec §4.6 step 2, written from the claim's words: the profile (lowercased,
as a set) intersected with `direct − mayContain`, filtered to confidence
`≥ 0.85`, sorted alphabetically.  An allergen with no recorded confidence is
not excluded (the spec's invariant guarantees an entry exists, and the
classifier must not fail when it does not). -/
def spec_danger_hits (user direct mayC : List Str) (conf : Str → Option ℚ) : List Str :=
  sortStr ((dedup (user.map lowerStr)).filter fun a =>
    decide (a ∈ direct) && !decide (a ∈ mayC)
      && (conf a).all fun q => decide (FUZZY_THRESHOLD ≤ q))

/-- Spec §4.6 step 3: profile ∩ `mayContain`, filtered to confidence `≥ 0.85`
with a missing entry defaulting to `0.9`, sorted alphabetically. -/
def spec_warning_hits (user mayC : List Str) (conf : Str → Option ℚ) : List Str :=
  sortStr ((dedup (user.map lowerStr)).filter fun a =>
    decide (a ∈ mayC) && decide (FUZZY_THRESHOLD ≤ (conf a).getD (mkRat 9 10)))

/-- Spec §4.6: the strict three-branch priority, written from the claim. -/
def spec_classify (user direct mayC : List Str) (conf : Str → Option ℚ) : RiskLevel × List Str :=
  if spec_danger_hits user direct mayC conf ≠ [] then
    (RiskLevel.DANGER, spec_danger_hits user direct mayC conf)
  else if spec_warning_hits user mayC conf ≠ [] then
    (RiskLevel.WARNING, spec_warning_hits user mayC conf)
  else (RiskLevel.SAFE, [])

/-- Every catalog keyword consists of lowercase ASCII letters and spaces
only; in particular no keyword contains a regex metacharacter, so the
escaping loop in `_build_keyword_patterns` is the identity on them. -/
theorem catalog_keywords_plain :
    (ALLERGEN_KEYWORDS.all fun p => p.2.all fun kw =>
      kw.all fun c => (97 ≤ c && c ≤ 122) || c == 32) = true := by decide

/-! ## Basic lemmas about the state operations -/

theorem pyMax_eq_max (x y : ℚ) : pyMax x y = max x y := by
  unfold pyMax
  rcases le_total x y with h | h
  · simp [h, max_eq_right h]
  · rcases eq_or_lt_of_le h with rfl | hlt
    · simp
    · simp [max_eq_left h, not_le.mpr hlt]

theorem setAdd_mem (l : List Str) (a b : Str) : a ∈ setAdd l b ↔ a ∈ l ∨ a = b := by
  unfold setAdd
  by_cases hb : b ∈ l
  · simp only [if_pos hb]
    constructor
    · exact Or.inl
    · rintro (h | rfl) <;> [exact h; exact hb]
  · simp [if_neg hb]

theorem confUpd_same (m : Str → Option ℚ) (a : Str) (q : ℚ) :
    confUpd m a q a = some (pyMax ((m a).getD (mkRat 0 1)) q) := by
  simp [confUpd]

theorem confUpd_other (m : Str → Option ℚ) (a x : Str) (q : ℚ) (h : x ≠ a) :
    confUpd m a q x = m x := by
  simp [confUpd, h]

theorem mergeFold_append (o : Option ℚ) (q1 q2 : List ℚ) :
    mergeFold o (q1 ++ q2) = mergeFold (mergeFold o q1) q2 := by
  simp [mergeFold, List.foldl_append]

theorem mergeFold_some (x : ℚ) (qs : List ℚ) :
    mergeFold (some x) qs = some (qs.foldl pyMax x) := by
  induction qs generalizing x with
  | nil => rfl
  | cons q qs ih =>
    simp only [mergeFold, List.foldl_cons, Option.getD_some] at *
    exact ih (pyMax x q)

theorem mergeFold_none_nonneg (qs : List ℚ) (h : ∀ q ∈ qs, (0 : ℚ) ≤ q) :
    mergeFold none qs = maxContrib qs := by
  cases qs with
  | nil => rfl
  | cons q qs =>
    have h0 : (0 : ℚ) ≤ q := h q (List.mem_cons_self _ _)
    show mergeFold (some (pyMax ((none : Option ℚ).getD (mkRat 0 1)) q)) qs = _
    rw [mergeFold_some]
    have : pyMax ((none : Option ℚ).getD (mkRat 0 1)) q = q := by
      show pyMax (mkRat 0 1) q = q
      rw [pyMax_eq_max]
      have : (mkRat 0 1 : ℚ) = 0 := by norm_num
      rw [this]
      exact max_eq_right h0
    rw [this]
    rfl

/-! ## Characterizing `phase1` -/

theorem phase1_fold_mayContain (text : Str) (L : List (Str × List Str)) (st : DetectionResult) :
    (L.foldl
      (fun st p =>
        if p.2.any (fun kw => reSearchWord kw text) then
          { st with direct := setAdd st.direct p.1, conf := confUpd st.conf p.1 1 }
        else st)
      st).mayContain = st.mayContain := by
  induction L generalizing st with
  | nil => rfl
  | cons p L ih =>
    simp only [List.foldl_cons]
    by_cases h : p.2.any (fun kw => reSearchWord kw text) = true
    · rw [if_pos h, ih]
    · rw [if_neg h, ih]

theorem phase1_fold_direct (text : Str) (L : List (Str × List Str)) (st : DetectionResult)
    (a : Str) :
    (a ∈ (L.foldl
      (fun st p =>
        if p.2.any (fun kw => reSearchWord kw text) then
          { st with direct := setAdd st.direct p.1, conf := confUpd st.conf p.1 1 }
        else st)
      st).direct)
    ↔ (a ∈ st.direct ∨
        L.any (fun p => p.1 == a && p.2.any fun kw => reSearchWord kw text) = true) := by
  induction L generalizing st with
  | nil => simp
  | cons p L ih =>
    simp only [List.foldl_cons, List.any_cons]
    by_cases h : p.2.any (fun kw => reSearchWord kw text) = true
    · rw [if_pos h, ih]
      simp only [setAdd_mem, h, Bool.and_true, Bool.or_eq_true, beq_iff_eq]
      constructor
      · rintro ((hs | rfl) | hL)
        · exact Or.inl hs
        · exact Or.inr (Or.inl rfl)
        · exact Or.inr (Or.inr hL)
      · rintro (hs | (rfl | hL))
        · exact Or.inl (Or.inl hs)
        · exact Or.inl (Or.inr rfl)
        · exact Or.inr hL
    · rw [if_neg h, ih]
      simp only [Bool.and_eq_true, Bool.or_eq_true]
      constructor
      · rintro (hs | hL)
        · exact Or.inl hs
        · exact Or.inr (Or.inr hL)
      · rintro (hs | (⟨_, hc⟩ | hL))
        · exact Or.inl hs
        · exact absurd hc h
        · exact Or.inr hL

theorem phase1_fold_conf (text : Str) (L : List (Str × List Str)) (st : DetectionResult)
    (a : Str) :
    (L.foldl
      (fun st p =>
        if p.2.any (fun kw => reSearchWord kw text) then
          { st with direct := setAdd st.direct p.1, conf := confUpd st.conf p.1 1 }
        else st)
      st).conf a =
    if L.any (fun p => p.1 == a && p.2.any fun kw => reSearchWord kw text) then
      some (pyMax ((st.conf a).getD (mkRat 0 1)) 1)
    else st.conf a := by
  induction L generalizing st with
  | nil => simp
  | cons p L ih =>
    simp only [List.foldl_cons, List.any_cons]
    by_cases h : p.2.any (fun kw => reSearchWord kw text) = true
    · rw [if_pos h, ih]
      by_cases hpa : p.1 = a
      · subst hpa
        simp only [beq_self_eq_true, Bool.true_and, h, Bool.true_or, if_true]
        rw [confUpd_same]
        by_cases hL :
            (L.any fun q => q.1 == p.1 && q.2.any fun kw => reSearchWord kw text) = true
        · rw [if_pos hL, Option.getD_some]
          simp [pyMax_eq_max, max_assoc]
        · rw [if_neg hL]
      · have hne : (p.1 == a) = false := beq_eq_false_iff_ne.mpr hpa
        simp only [hne, Bool.false_and, Bool.false_or]
        rw [show (confUpd st.conf p.1 1) a = st.conf a from confUpd_other _ _ _ _ (Ne.symm hpa)]
    · rw [if_neg h, ih]
      have hfalse : (p.2.any fun kw => reSearchWord kw text) = false := by
        revert h
        cases p.2.any fun kw => reSearchWord kw text <;> simp
      simp only [hfalse, Bool.and_false, Bool.false_or]

/-! ## Characterizing `phase2` -/

theorem p2row_direct (w : Str) (L : List (Str × List Str)) (st : DetectionResult) :
    (L.foldl
      (fun st p =>
        if p.2.any (fun kw => reSearchWord kw w) then
          { st with mayContain := setAdd st.mayContain p.1,
                    conf := confUpd st.conf p.1 (mkRat 9 10) }
        else st)
      st).direct = st.direct := by
  induction L generalizing st with
  | nil => rfl
  | cons p L ih =>
    simp only [List.foldl_cons]
    by_cases h : p.2.any (fun kw => reSearchWord kw w) = true
    · rw [if_pos h, ih]
    · rw [if_neg h, ih]

theorem p2row_mayContain (w : Str) (L : List (Str × List Str)) (st : DetectionResult)
    (a : Str) :
    (a ∈ (L.foldl
      (fun st p =>
        if p.2.any (fun kw => reSearchWord kw w) then
          { st with mayContain := setAdd st.mayContain p.1,
                    conf := confUpd st.conf p.1 (mkRat 9 10) }
        else st)
      st).mayContain)
    ↔ (a ∈ st.mayContain ∨
        L.any (fun p => p.1 == a && p.2.any fun kw => reSearchWord kw w) = true) := by
  induction L generalizing st with
  | nil => simp
  | cons p L ih =>
    simp only [List.foldl_cons, List.any_cons]
    by_cases h : p.2.any (fun kw => reSearchWord kw w) = true
    · rw [if_pos h, ih]
      simp only [setAdd_mem, h, Bool.and_true, Bool.or_eq_true, beq_iff_eq]
      constructor
      · rintro ((hs | rfl) | hL)
        · exact Or.inl hs
        · exact Or.inr (Or.inl rfl)
        · exact Or.inr (Or.inr hL)
      · rintro (hs | (rfl | hL))
        · exact Or.inl (Or.inl hs)
        · exact Or.inl (Or.inr rfl)
        · exact Or.inr hL
    · rw [if_neg h, ih]
      have hfalse : (p.2.any fun kw => reSearchWord kw w) = false := by
        revert h
        cases p.2.any fun kw => reSearchWord kw w <;> simp
      simp only [hfalse, Bool.and_false, Bool.false_or]

theorem p2row_conf (w : Str) (L : List (Str × List Str)) (st : DetectionResult) (a : Str) :
    (L.foldl
      (fun st p =>
        if p.2.any (fun kw => reSearchWord kw w) then
          { st with mayContain := setAdd st.mayContain p.1,
                    conf := confUpd st.conf p.1 (mkRat 9 10) }
        else st)
      st).conf a =
    if L.any (fun p => p.1 == a && p.2.any fun kw => reSearchWord kw w) then
      some (pyMax ((st.conf a).getD (mkRat 0 1)) (mkRat 9 10))
    else st.conf a := by
  induction L generalizing st with
  | nil => simp
  | cons p L ih =>
    simp only [List.foldl_cons, List.any_cons]
    by_cases h : p.2.any (fun kw => reSearchWord kw w) = true
    · rw [if_pos h, ih]
      by_cases hpa : p.1 = a
      · subst hpa
        simp only [beq_self_eq_true, Bool.true_and, h, Bool.true_or, if_true]
        rw [confUpd_same]
        by_cases hL :
            (L.any fun q => q.1 == p.1 && q.2.any fun kw => reSearchWord kw w) = true
        · rw [if_pos hL, Option.getD_some]
          simp [pyMax_eq_max, max_assoc]
        · rw [if_neg hL]
      · have hne : (p.1 == a) = false := beq_eq_false_iff_ne.mpr hpa
        simp only [hne, Bool.false_and, Bool.false_or]
        rw [show (confUpd st.conf p.1 (mkRat 9 10)) a = st.conf a from
          confUpd_other _ _ _ _ (Ne.symm hpa)]
    · rw [if_neg h, ih]
      have hfalse : (p.2.any fun kw => reSearchWord kw w) = false := by
        revert h
        cases p.2.any fun kw => reSearchWord kw w <;> simp
      simp only [hfalse, Bool.and_false, Bool.false_or]

/-- Chaining two conditional `max`-updates with the same value `v` collapses
into one update guarded by the disjunction. -/
theorem pyMaxStepOr (x y : Bool) (c : Option ℚ) (v : ℚ) :
    (if y = true then
        some (pyMax ((if x = true then
            some (pyMax (c.getD (mkRat 0 1)) v) else c).getD (mkRat 0 1)) v)
      else if x = true then some (pyMax (c.getD (mkRat 0 1)) v) else c) =
    if (x || y) = true then some (pyMax (c.getD (mkRat 0 1)) v) else c := by
  cases x <;> cases y <;> simp [pyMax_eq_max, max_assoc]

theorem phase2_fold_direct (text : Str) (I : List Nat) (st : DetectionResult) :
    (I.foldl
      (fun stw idx =>
        ALLERGEN_KEYWORDS.foldl
          (fun st p =>
            if p.2.any (fun kw => reSearchWord kw (advisoryWindow text idx)) then
              { st with mayContain := setAdd st.mayContain p.1,
                        conf := confUpd st.conf p.1 (mkRat 9 10) }
            else st)
          stw)
      st).direct = st.direct := by
  induction I generalizing st with
  | nil => rfl
  | cons idx I ih =>
    simp only [List.foldl_cons]
    rw [ih, p2row_direct]

theorem phase2_fold_mayContain (text : Str) (I : List Nat) (st : DetectionResult) (a : Str) :
    (a ∈ (I.foldl
      (fun stw idx =>
        ALLERGEN_KEYWORDS.foldl
          (fun st p =>
            if p.2.any (fun kw => reSearchWord kw (advisoryWindow text idx)) then
              { st with mayContain := setAdd st.mayContain p.1,
                        conf := confUpd st.conf p.1 (mkRat 9 10) }
            else st)
          stw)
      st).mayContain)
    ↔ (a ∈ st.mayContain ∨
        I.any (fun idx => ALLERGEN_KEYWORDS.any fun p =>
          p.1 == a && p.2.any fun kw => reSearchWord kw (advisoryWindow text idx)) = true) := by
  induction I generalizing st with
  | nil => simp
  | cons idx I ih =>
    simp only [List.foldl_cons, List.any_cons]
    rw [ih, p2row_mayContain]
    simp only [Bool.or_eq_true]
    tauto

theorem phase2_fold_conf (text : Str) (I : List Nat) (st : DetectionResult) (a : Str) :
    (I.foldl
      (fun stw idx =>
        ALLERGEN_KEYWORDS.foldl
          (fun st p =>
            if p.2.any (fun kw => reSearchWord kw (advisoryWindow text idx)) then
              { st with mayContain := setAdd st.mayContain p.1,
                        conf := confUpd st.conf p.1 (mkRat 9 10) }
            else st)
          stw)
      st).conf a =
    if I.any (fun idx => ALLERGEN_KEYWORDS.any fun p =>
        p.1 == a && p.2.any fun kw => reSearchWord kw (advisoryWindow text idx)) then
      some (pyMax ((st.conf a).getD (mkRat 0 1)) (mkRat 9 10))
    else st.conf a := by
  induction I generalizing st with
  | nil => simp
  | cons idx I ih =>
    simp only [List.foldl_cons, List.any_cons]
    rw [ih, p2row_conf]
    exact pyMaxStepOr _ _ _ _

/-! ## Characterizing `phase3` -/

theorem p3row_mayContain (K : Str) (gs : List Str) (kws : List Str) (st : DetectionResult) :
    (kws.foldl
      (fun st kw =>
        match firstHit kw gs with
        | some s => { st with direct := setAdd st.direct K, conf := confUpd st.conf K s }
        | none => st)
      st).mayContain = st.mayContain := by
  induction kws generalizing st with
  | nil => rfl
  | cons kw kws ih =>
    simp only [List.foldl_cons]
    cases hfh : firstHit kw gs with
    | none => rw [ih]
    | some s => rw [ih]

theorem p3row_direct (K : Str) (gs : List Str) (kws : List Str) (st : DetectionResult)
    (a : Str) :
    (a ∈ (kws.foldl
      (fun st kw =>
        match firstHit kw gs with
        | some s => { st with direct := setAdd st.direct K, conf := confUpd st.conf K s }
        | none => st)
      st).direct)
    ↔ (a ∈ st.direct ∨ (a = K ∧ kws.filterMap (fun kw => firstHit kw gs) ≠ [])) := by
  induction kws generalizing st with
  | nil => simp
  | cons kw kws ih =>
    simp only [List.foldl_cons, List.filterMap_cons]
    cases hfh : firstHit kw gs with
    | none =>
      rw [ih]
    | some s =>
      rw [ih]
      simp only [setAdd_mem]
      constructor
      · rintro ((hs | rfl) | ⟨rfl, _⟩)
        · exact Or.inl hs
        · exact Or.inr ⟨rfl, by simp⟩
        · exact Or.inr ⟨rfl, by simp⟩
      · rintro (hs | ⟨rfl, _⟩)
        · exact Or.inl (Or.inl hs)
        · exact Or.inl (Or.inr rfl)

theorem p3row_conf_other (K : Str) (gs : List Str) (kws : List Str) (st : DetectionResult)
    (a : Str) (ha : a ≠ K) :
    (kws.foldl
      (fun st kw =>
        match firstHit kw gs with
        | some s => { st with direct := setAdd st.direct K, conf := confUpd st.conf K s }
        | none => st)
      st).conf a = st.conf a := by
  induction kws generalizing st with
  | nil => rfl
  | cons kw kws ih =>
    simp only [List.foldl_cons]
    cases hfh : firstHit kw gs with
    | none => rw [ih]
    | some s =>
      rw [ih]
      exact confUpd_other _ _ _ _ ha

theorem p3row_conf_key (K : Str) (gs : List Str) (kws : List Str) (st : DetectionResult) :
    (kws.foldl
      (fun st kw =>
        match firstHit kw gs with
        | some s => { st with direct := setAdd st.direct K, conf := confUpd st.conf K s }
        | none => st)
      st).conf K = mergeFold (st.conf K) (kws.filterMap fun kw => firstHit kw gs) := by
  induction kws generalizing st with
  | nil => rfl
  | cons kw kws ih =>
    simp only [List.foldl_cons, List.filterMap_cons]
    cases hfh : firstHit kw gs with
    | none => rw [ih]
    | some s =>
      rw [ih]
      show mergeFold (confUpd st.conf K s K) _ = _
      rw [confUpd_same]
      rfl

theorem fuzzyScores_eq_scoresL (text a : Str) :
    fuzzyScores text a = scoresL (gramsOf (_tokenize text)) ALLERGEN_KEYWORDS a := rfl

theorem phase3_fold_mayContain (gs : List Str) (L : List (Str × List Str))
    (st : DetectionResult) :
    (L.foldl
      (fun sta p =>
        p.2.foldl
          (fun st kw =>
            match firstHit kw gs with
            | some s =>
              { st with direct := setAdd st.direct p.1, conf := confUpd st.conf p.1 s }
            | none => st)
          sta)
      st).mayContain = st.mayContain := by
  induction L generalizing st with
  | nil => rfl
  | cons p L ih =>
    simp only [List.foldl_cons]
    rw [ih, p3row_mayContain]

theorem phase3_fold_conf (gs : List Str) (L : List (Str × List Str)) (st : DetectionResult)
    (a : Str) :
    (L.foldl
      (fun sta p =>
        p.2.foldl
          (fun st kw =>
            match firstHit kw gs with
            | some s =>
              { st with direct := setAdd st.direct p.1, conf := confUpd st.conf p.1 s }
            | none => st)
          sta)
      st).conf a = mergeFold (st.conf a) (scoresL gs L a) := by
  induction L generalizing st with
  | nil => rfl
  | cons p L ih =>
    simp only [List.foldl_cons]
    rw [ih]
    by_cases hpa : p.1 = a
    · subst hpa
      rw [p3row_conf_key]
      have hfilter : ((p :: L).filter fun q => q.1 == p.1) =
          p :: (L.filter fun q => q.1 == p.1) := by
        simp [List.filter_cons]
      simp only [scoresL]
      rw [hfilter]
      simp only [List.map_cons, List.flatten_cons]
      rw [mergeFold_append]
      rfl
    · rw [p3row_conf_other _ _ _ _ _ (Ne.symm hpa)]
      have hfilter : ((p :: L).filter fun q => q.1 == a) = L.filter fun q => q.1 == a := by
        simp [List.filter_cons, beq_eq_false_iff_ne.mpr hpa]
      simp only [scoresL]
      rw [hfilter]

theorem phase3_fold_direct (gs : List Str) (L : List (Str × List Str)) (st : DetectionResult)
    (a : Str) :
    (a ∈ (L.foldl
      (fun sta p =>
        p.2.foldl
          (fun st kw =>
            match firstHit kw gs with
            | some s =>
              { st with direct := setAdd st.direct p.1, conf := confUpd st.conf p.1 s }
            | none => st)
          sta)
      st).direct)
    ↔ (a ∈ st.direct ∨ scoresL gs L a ≠ []) := by
  induction L generalizing st with
  | nil => simp [scoresL]
  | cons p L ih =>
    simp only [List.foldl_cons]
    rw [ih]
    by_cases hpa : p.1 = a
    · subst hpa
      rw [p3row_direct]
      have hfilter : ((p :: L).filter fun q => q.1 == p.1) =
          p :: (L.filter fun q => q.1 == p.1) := by
        simp [List.filter_cons]
      simp only [scoresL, hfilter, List.map_cons, List.flatten_cons, ne_eq,
        List.append_eq_nil, rowScores, not_and_or]
      tauto
    · rw [p3row_direct]
      have hfilter : ((p :: L).filter fun q => q.1 == a) = L.filter fun q => q.1 == a := by
        simp [List.filter_cons, beq_eq_false_iff_ne.mpr hpa]
      simp only [scoresL, hfilter]
      have hne : ¬ (a = p.1) := fun h => hpa h.symm
      tauto

/-! ## The mechanisms on the empty text -/

/-- Every catalog keyword is a nonempty string. -/
theorem catalog_kws_ne_nil :
    (ALLERGEN_KEYWORDS.all fun p => p.2.all fun kw => !kw.isEmpty) = true := by decide

theorem reSearchWord_nil (kw : Str) (h : kw ≠ []) : reSearchWord kw [] = false := by
  cases kw with
  | nil => exact absurd rfl h
  | cons c kw => rfl

theorem patternHitB_nil (a : Str) : patternHitB [] a = false := by
  rw [patternHitB, List.any_eq_false]
  intro p hp hcontra
  simp only [Bool.and_eq_true] at hcontra
  rcases hcontra with ⟨_, hany⟩
  rcases List.any_eq_true.mp hany with ⟨kw, hkw, hsr⟩
  have h1 := List.all_eq_true.mp catalog_kws_ne_nil p hp
  have h2 := List.all_eq_true.mp h1 kw hkw
  have hkwne : kw ≠ [] := by
    intro hnil
    rw [hnil] at h2
    simp at h2
  rw [reSearchWord_nil kw hkwne] at hsr
  simp at hsr

theorem may_contain_indices_nil : may_contain_indices [] = [] := by decide

theorem proxHitB_nil (a : Str) : proxHitB [] a = false := by
  rw [proxHitB, List.any_eq_false]
  intro p _
  rw [may_contain_indices_nil]
  simp

theorem firstHit_nil_grams (kw : Str) : firstHit kw [] = none := rfl

theorem fuzzyScores_nil (a : Str) : fuzzyScores [] a = [] := by
  rw [fuzzyScores_eq_scoresL]
  have hg : gramsOf (_tokenize ([] : Str)) = [] := by decide
  rw [hg, scoresL]
  rw [List.flatten_eq_nil_iff]
  intro l hl
  rcases List.mem_map.mp hl with ⟨p, _, rfl⟩
  simp [rowScores, firstHit_nil_grams]

/-! ## Combinatorial helpers -/

/-- Exchanging the two `any`s (the source iterates windows outside and the
catalog inside; the per-allergen view iterates the other way). -/
theorem any_swap {α β : Type} (L : List α) (M : List β) (c : β → Bool) (g : β → α → Bool) :
    (L.any fun x => M.any fun y => c y && g y x) = (M.any fun y => c y && L.any fun x => g y x) := by
  rw [Bool.eq_iff_iff]
  simp only [List.any_eq_true, Bool.and_eq_true]
  constructor
  · rintro ⟨x, hx, y, hy, hc, hg⟩
    exact ⟨y, hy, hc, x, hx, hg⟩
  · rintro ⟨y, hy, hc, x, hx, hg⟩
    exact ⟨x, hx, y, hy, hc, hg⟩

theorem foldl_pyMax_le (u : ℚ) (qs : List ℚ) (x : ℚ) (hx : x ≤ u) (h : ∀ q ∈ qs, q ≤ u) :
    qs.foldl pyMax x ≤ u := by
  induction qs generalizing x with
  | nil => exact hx
  | cons q qs ih =>
    simp only [List.foldl_cons]
    refine ih (pyMax x q) ?_ (fun r hr => h r (List.mem_cons_of_mem _ hr))
    rw [pyMax_eq_max]
    exact max_le hx (h q (List.mem_cons_self _ _))

theorem foldl_pyMax_ge_init (qs : List ℚ) (x : ℚ) : x ≤ qs.foldl pyMax x := by
  induction qs generalizing x with
  | nil => exact le_refl x
  | cons q qs ih =>
    simp only [List.foldl_cons]
    refine le_trans ?_ (ih (pyMax x q))
    rw [pyMax_eq_max]
    exact le_max_left x q

theorem foldl_pyMax_ge_mem (qs : List ℚ) (x q : ℚ) (hq : q ∈ qs) : q ≤ qs.foldl pyMax x := by
  induction qs generalizing x with
  | nil => cases hq
  | cons r qs ih =>
    simp only [List.foldl_cons]
    rcases List.mem_cons.mp hq with rfl | hmem
    · refine le_trans ?_ (foldl_pyMax_ge_init qs (pyMax x q))
      rw [pyMax_eq_max]
      exact le_max_right x q
    · exact ih _ hmem

theorem maxContrib_isSome (qs : List ℚ) : (maxContrib qs).isSome ↔ qs ≠ [] := by
  cases qs <;> simp [maxContrib]

theorem maxContrib_le (u : ℚ) (qs : List ℚ) (r : ℚ) (h : ∀ q ∈ qs, q ≤ u)
    (hr : maxContrib qs = some r) : r ≤ u := by
  cases qs with
  | nil => cases hr
  | cons q qs =>
    rw [maxContrib] at hr
    cases hr
    exact foldl_pyMax_le u qs q (h q (List.mem_cons_self _ _))
      (fun x hx => h x (List.mem_cons_of_mem _ hx))

theorem maxContrib_lb (lb : ℚ) (qs : List ℚ) (r : ℚ) (h : ∀ q ∈ qs, lb ≤ q)
    (hr : maxContrib qs = some r) : lb ≤ r := by
  cases qs with
  | nil => cases hr
  | cons q qs =>
    rw [maxContrib] at hr
    cases hr
    exact le_trans (h q (List.mem_cons_self _ _)) (foldl_pyMax_ge_init qs q)

theorem maxContrib_ge_mem (qs : List ℚ) (r q : ℚ) (hq : q ∈ qs)
    (hr : maxContrib qs = some r) : q ≤ r := by
  cases qs with
  | nil => cases hq
  | cons x qs =>
    rw [maxContrib] at hr
    cases hr
    rcases List.mem_cons.mp hq with rfl | hmem
    · exact foldl_pyMax_ge_init qs q
    · exact foldl_pyMax_ge_mem qs x q hmem

/-! ## Per-phase wrappers -/

theorem phase1_direct (text a : Str) :
    a ∈ (phase1 text).direct ↔ patternHitB text a = true := by
  unfold phase1
  rw [phase1_fold_direct]
  simp only [emptyDR, List.not_mem_nil, false_or]
  rw [patternHitB]

theorem phase1_mayContain (text : Str) : (phase1 text).mayContain = [] := by
  unfold phase1
  rw [phase1_fold_mayContain]
  rfl

theorem phase1_conf (text a : Str) :
    (phase1 text).conf a = if patternHitB text a then some 1 else none := by
  unfold phase1
  rw [phase1_fold_conf]
  rw [show (ALLERGEN_KEYWORDS.any fun p => p.1 == a && p.2.any fun kw => reSearchWord kw text) =
    patternHitB text a from rfl]
  by_cases h : patternHitB text a = true
  · rw [if_pos h, if_pos h]
    have : pyMax ((emptyDR.conf a).getD (mkRat 0 1)) 1 = 1 := by
      show pyMax ((none : Option ℚ).getD (mkRat 0 1)) 1 = 1
      rw [Option.getD_none, pyMax_eq_max]
      exact max_eq_right (by norm_num [Rat.mkRat_eq_div])
    rw [this]
  · rw [if_neg h, if_neg h]
    rfl

theorem prox_window_major (text a : Str) :
    ((may_contain_indices text).any fun idx => ALLERGEN_KEYWORDS.any fun p =>
      p.1 == a && p.2.any fun kw => reSearchWord kw (advisoryWindow text idx)) =
      proxHitB text a := by
  rw [proxHitB]
  exact any_swap (may_contain_indices text) ALLERGEN_KEYWORDS (fun p => p.1 == a)
    (fun p idx => p.2.any fun kw => reSearchWord kw (advisoryWindow text idx))

theorem phase2_direct (text : Str) (st : DetectionResult) :
    (phase2 text st).direct = st.direct := by
  unfold phase2
  rw [phase2_fold_direct]

theorem phase2_mayContain (text : Str) (st : DetectionResult) (a : Str) :
    a ∈ (phase2 text st).mayContain ↔ (a ∈ st.mayContain ∨ proxHitB text a = true) := by
  unfold phase2
  rw [phase2_fold_mayContain, prox_window_major]

theorem phase2_conf (text : Str) (st : DetectionResult) (a : Str) :
    (phase2 text st).conf a =
      if proxHitB text a then some (pyMax ((st.conf a).getD (mkRat 0 1)) (mkRat 9 10))
      else st.conf a := by
  unfold phase2
  rw [phase2_fold_conf, prox_window_major]

theorem phase3_direct (text : Str) (st : DetectionResult) (a : Str) :
    a ∈ (phase3 text st).direct ↔ (a ∈ st.direct ∨ fuzzyHitB text a = true) := by
  unfold phase3
  rw [phase3_fold_direct]
  rw [show scoresL (gramsOf (_tokenize text)) ALLERGEN_KEYWORDS a = fuzzyScores text a from
    (fuzzyScores_eq_scoresL text a).symm]
  simp [fuzzyHitB, List.isEmpty_iff]

theorem phase3_mayContain (text : Str) (st : DetectionResult) :
    (phase3 text st).mayContain = st.mayContain := by
  unfold phase3
  rw [phase3_fold_mayContain]

theorem phase3_conf (text : Str) (st : DetectionResult) (a : Str) :
    (phase3 text st).conf a = mergeFold (st.conf a) (fuzzyScores text a) := by
  unfold phase3
  rw [phase3_fold_conf]
  rw [show scoresL (gramsOf (_tokenize text)) ALLERGEN_KEYWORDS a = fuzzyScores text a from
    (fuzzyScores_eq_scoresL text a).symm]

/-! ## The detect-level characterization -/

theorem firstHit_some (kw : Str) (gs : List Str) (q : ℚ) (h : firstHit kw gs = some q) :
    FUZZY_THRESHOLD ≤ q ∧ ∃ g ∈ gs, q = fuzzy_ratio kw g := by
  rw [firstHit] at h
  cases hf : List.find? (fun g => decide (FUZZY_THRESHOLD ≤ fuzzy_ratio kw g)) gs with
  | none =>
    rw [hf] at h
    cases h
  | some g =>
    rw [hf] at h
    have hq : q = fuzzy_ratio kw g := by
      cases h
      rfl
    subst hq
    have hp := List.find?_some hf
    simp only [decide_eq_true_eq] at hp
    exact ⟨hp, g, List.mem_of_find?_eq_some hf, rfl⟩

theorem fuzzyScores_ge_threshold (text a : Str) (q : ℚ) (hq : q ∈ fuzzyScores text a) :
    FUZZY_THRESHOLD ≤ q := by
  simp only [fuzzyScores] at hq
  rcases List.mem_flatten.mp hq with ⟨l, hl, hql⟩
  rcases List.mem_map.mp hl with ⟨p, hp, rfl⟩
  rcases List.mem_filterMap.mp hql with ⟨kw, hkw, hfh⟩
  exact (firstHit_some kw _ q hfh).1

theorem detect_direct_iff (t : Option Str) (a : Str) :
    a ∈ (detect_allergens t).direct ↔
      (patternHitB (_normalize_text t) a = true ∨ fuzzyHitB (_normalize_text t) a = true) := by
  unfold detect_allergens
  by_cases he : (_normalize_text t).isEmpty = true
  · rw [if_pos he]
    have hnil : _normalize_text t = [] := List.isEmpty_iff.mp he
    rw [hnil]
    simp [emptyDR, patternHitB_nil, fuzzyHitB, fuzzyScores_nil]
  · rw [if_neg he]
    rw [phase3_direct, phase2_direct, phase1_direct]

theorem detect_mayContain_iff (t : Option Str) (a : Str) :
    a ∈ (detect_allergens t).mayContain ↔ proxHitB (_normalize_text t) a = true := by
  unfold detect_allergens
  by_cases he : (_normalize_text t).isEmpty = true
  · rw [if_pos he]
    have hnil : _normalize_text t = [] := List.isEmpty_iff.mp he
    rw [hnil]
    simp [emptyDR, proxHitB_nil]
  · rw [if_neg he]
    rw [phase3_mayContain, phase2_mayContain, phase1_mayContain]
    simp

theorem detect_conf_eq (t : Option Str) (a : Str) :
    (detect_allergens t).conf a = maxContrib (contribs (_normalize_text t) a) := by
  unfold detect_allergens
  by_cases he : (_normalize_text t).isEmpty = true
  · rw [if_pos he]
    have hnil : _normalize_text t = [] := List.isEmpty_iff.mp he
    rw [hnil]
    show (none : Option ℚ) = _
    rw [contribs, patternHitB_nil, proxHitB_nil, fuzzyScores_nil]
    simp [maxContrib]
  · rw [if_neg he]
    rw [phase3_conf, phase2_conf, phase1_conf, contribs]
    by_cases hp : patternHitB (_normalize_text t) a = true
    · simp only [hp, if_true]
      by_cases hx : proxHitB (_normalize_text t) a = true
      · simp only [hx, if_true, Option.getD_some]
        rw [mergeFold_some]
        rfl
      · have hx' : proxHitB (_normalize_text t) a = false := by
          revert hx
          cases proxHitB (_normalize_text t) a <;> simp
        simp only [hx', Bool.false_eq_true, if_false]
        rw [mergeFold_some]
        rfl
    · have hp' : patternHitB (_normalize_text t) a = false := by
        revert hp
        cases patternHitB (_normalize_text t) a <;> simp
      simp only [hp', Bool.false_eq_true, if_false]
      by_cases hx : proxHitB (_normalize_text t) a = true
      · simp only [hx, if_true, Option.getD_none]
        rw [mergeFold_some]
        have h09 : pyMax (mkRat 0 1) (mkRat 9 10) = mkRat 9 10 := by
          rw [pyMax_eq_max]
          exact max_eq_right (by norm_num [Rat.mkRat_eq_div])
        rw [h09]
        rfl
      · have hx' : proxHitB (_normalize_text t) a = false := by
          revert hx
          cases proxHitB (_normalize_text t) a <;> simp
        simp only [hx', Bool.false_eq_true, if_false]
        rw [mergeFold_none_nonneg]
        · rfl
        · intro q hq
          refine le_trans ?_ (fuzzyScores_ge_threshold _ _ q hq)
          norm_num [FUZZY_THRESHOLD, Rat.mkRat_eq_div]

/-! ## `fuzzy_ratio` is at most `1` -/

theorem commPrefLen_le_left (xs ys : Str) : commPrefLen xs ys ≤ xs.length := by
  induction xs generalizing ys with
  | nil => cases ys <;> simp [commPrefLen]
  | cons x xs ih =>
    cases ys with
    | nil => simp [commPrefLen]
    | cons y ys =>
      rw [show commPrefLen (x :: xs) (y :: ys) =
        (if x == y then commPrefLen xs ys + 1 else 0) from rfl]
      by_cases h : (x == y) = true
      · rw [if_pos h]
        simpa using ih ys
      · rw [if_neg h]
        simp

theorem commPrefLen_le_right (xs ys : Str) : commPrefLen xs ys ≤ ys.length := by
  induction xs generalizing ys with
  | nil => cases ys <;> simp [commPrefLen]
  | cons x xs ih =>
    cases ys with
    | nil => simp [commPrefLen]
    | cons y ys =>
      rw [show commPrefLen (x :: xs) (y :: ys) =
        (if x == y then commPrefLen xs ys + 1 else 0) from rfl]
      by_cases h : (x == y) = true
      · rw [if_pos h]
        simpa using ih ys
      · rw [if_neg h]
        simp

theorem cellRun_le_left (a b : Str) (i j : Nat) : cellRun a b i j ≤ i + 1 := by
  refine le_trans (commPrefLen_le_left _ _) ?_
  rw [List.length_reverse, List.length_take]
  exact min_le_left _ _

theorem cellRun_le_right (a b : Str) (i j : Nat) : cellRun a b i j ≤ j + 1 := by
  refine le_trans (commPrefLen_le_right _ _) ?_
  rw [List.length_reverse, List.length_take]
  exact min_le_left _ _

theorem foldl_inv {α β : Type} (f : β → α → β) (P : β → Prop) (l : List α) (init : β)
    (h0 : P init) (hstep : ∀ s x, x ∈ l → P s → P (f s x)) : P (l.foldl f init) := by
  induction l generalizing init with
  | nil => exact h0
  | cons x l ih =>
    exact ih (f init x) (hstep init x (List.mem_cons_self _ _) h0)
      (fun s y hy => hstep s y (List.mem_cons_of_mem _ hy))

theorem flmBest_valid (a b : Str) : blockValid a b (flmBest a b) := by
  rw [flmBest]
  refine foldl_inv _ (blockValid a b) _ _ ⟨Nat.zero_le _, Nat.zero_le _⟩ ?_
  intro s i hi hs
  have hilt : i < a.length := List.mem_range.mp hi
  refine foldl_inv _ (blockValid a b) _ _ hs ?_
  intro s' j hj hs'
  have hjlt : j < b.length := List.mem_range.mp hj
  by_cases hc : (b.getD j 0 == a.getD i 0) = true
  · rw [if_pos hc]
    show blockValid a b (if cellRun a b i j > s'.2.2 then _ else s')
    by_cases hk : cellRun a b i j > s'.2.2
    · rw [if_pos hk]
      constructor
      · show i + 1 - cellRun a b i j + cellRun a b i j ≤ a.length
        have := cellRun_le_left a b i j
        omega
      · show j + 1 - cellRun a b i j + cellRun a b i j ≤ b.length
        have := cellRun_le_right a b i j
        omega
    · rw [if_neg hk]
      exact hs'
  · rw [if_neg hc]
    exact hs'

theorem flmExtLeft_valid (a b : Str) (fuel : Nat) (st : Nat × Nat × Nat)
    (h : blockValid a b st) : blockValid a b (flmExtLeft a b fuel st) := by
  induction fuel generalizing st with
  | zero => exact h
  | succ fuel ih =>
    rcases st with ⟨bi, bj, bk⟩
    rw [flmExtLeft]
    by_cases hc : (0 < bi && 0 < bj && a.getD (bi - 1) 0 == b.getD (bj - 1) 0) = true
    · rw [if_pos hc]
      simp only [Bool.and_eq_true, decide_eq_true_eq] at hc
      refine ih (bi - 1, bj - 1, bk + 1) ?_
      rcases h with ⟨h1, h2⟩
      exact ⟨by simp only [blockValid] at *; omega, by simp only [blockValid] at *; omega⟩
    · rw [if_neg hc]
      exact h

theorem flmExtRight_valid (a b : Str) (fuel : Nat) (st : Nat × Nat × Nat)
    (h : blockValid a b st) : blockValid a b (flmExtRight a b fuel st) := by
  induction fuel generalizing st with
  | zero => exact h
  | succ fuel ih =>
    rcases st with ⟨bi, bj, bk⟩
    rw [flmExtRight]
    by_cases hc : (bi + bk < a.length && bj + bk < b.length
        && a.getD (bi + bk) 0 == b.getD (bj + bk) 0) = true
    · rw [if_pos hc]
      simp only [Bool.and_eq_true, decide_eq_true_eq] at hc
      refine ih (bi, bj, bk + 1) ?_
      exact ⟨by simp only [blockValid] at *; omega, by simp only [blockValid] at *; omega⟩
    · rw [if_neg hc]
      exact h

theorem find_longest_match_valid (a b : Str) : blockValid a b (find_longest_match a b) := by
  rw [find_longest_match]
  exact flmExtRight_valid a b _ _ (flmExtLeft_valid a b _ _ (flmBest_valid a b))

theorem matchTotalGo_le (fuel : Nat) (a b : Str) :
    matchTotalGo fuel a b ≤ a.length ∧ matchTotalGo fuel a b ≤ b.length := by
  induction fuel generalizing a b with
  | zero => exact ⟨Nat.zero_le _, Nat.zero_le _⟩
  | succ fuel ih =>
    rw [matchTotalGo]
    by_cases hk : ((find_longest_match a b).2.2 == 0) = true
    · rw [if_pos hk]
      exact ⟨Nat.zero_le _, Nat.zero_le _⟩
    · rw [if_neg hk]
      have hvalid := find_longest_match_valid a b
      rcases hvalid with ⟨h1, h2⟩
      have hL := ih (a.take (find_longest_match a b).1) (b.take (find_longest_match a b).2.1)
      have hR := ih (a.drop ((find_longest_match a b).1 + (find_longest_match a b).2.2))
        (b.drop ((find_longest_match a b).2.1 + (find_longest_match a b).2.2))
      rcases hL with ⟨hL1, hL2⟩
      rcases hR with ⟨hR1, hR2⟩
      rw [List.length_take] at hL1 hL2
      rw [List.length_drop] at hR1 hR2
      constructor
      · have := min_le_left (find_longest_match a b).1 a.length
        omega
      · have := min_le_left (find_longest_match a b).2.1 b.length
        omega

theorem matchTotal_le (a b : Str) : matchTotal a b ≤ a.length ∧ matchTotal a b ≤ b.length :=
  matchTotalGo_le _ a b

theorem fuzzy_ratio_le_one (a b : Str) : fuzzy_ratio a b ≤ 1 := by
  rw [fuzzy_ratio]
  by_cases h : a.length + b.length = 0
  · rw [if_pos h]
  · rw [if_neg h]
    rw [Rat.mkRat_eq_div]
    rw [div_le_one (by positivity)]
    · push_cast
      have := matchTotal_le a b
      have h2 : 2 * matchTotal a b ≤ a.length + b.length := by omega
      exact_mod_cast h2

/-! ## Bounds on recorded confidences -/

theorem fuzzyScores_le_one (text a : Str) (q : ℚ) (hq : q ∈ fuzzyScores text a) : q ≤ 1 := by
  simp only [fuzzyScores] at hq
  rcases List.mem_flatten.mp hq with ⟨l, hl, hql⟩
  rcases List.mem_map.mp hl with ⟨p, hp, rfl⟩
  rcases List.mem_filterMap.mp hql with ⟨kw, hkw, hfh⟩
  rcases (firstHit_some kw _ q hfh).2 with ⟨g, _, rfl⟩
  exact fuzzy_ratio_le_one kw g

theorem contribs_ge (text a : Str) (q : ℚ) (hq : q ∈ contribs text a) :
    FUZZY_THRESHOLD ≤ q := by
  simp only [contribs, List.mem_append] at hq
  rcases hq with (hq | hq) | hq
  · by_cases hp : patternHitB text a = true
    · simp only [hp, if_true, List.mem_singleton] at hq
      subst hq
      decide
    · simp only [if_neg hp, List.not_mem_nil] at hq
  · by_cases hx : proxHitB text a = true
    · simp only [hx, if_true, List.mem_singleton] at hq
      subst hq
      decide
    · simp only [if_neg hx, List.not_mem_nil] at hq
  · exact fuzzyScores_ge_threshold text a q hq

theorem contribs_le_one (text a : Str) (q : ℚ) (hq : q ∈ contribs text a) : q ≤ 1 := by
  simp only [contribs, List.mem_append] at hq
  rcases hq with (hq | hq) | hq
  · by_cases hp : patternHitB text a = true
    · simp only [hp, if_true, List.mem_singleton] at hq
      subst hq
      exact le_refl 1
    · simp only [if_neg hp, List.not_mem_nil] at hq
  · by_cases hx : proxHitB text a = true
    · simp only [hx, if_true, List.mem_singleton] at hq
      subst hq
      decide
    · simp only [if_neg hx, List.not_mem_nil] at hq
  · exact fuzzyScores_le_one text a q hq

theorem contribs_ne_nil_iff (text a : Str) :
    contribs text a ≠ [] ↔
      (patternHitB text a = true ∨ proxHitB text a = true ∨ fuzzyScores text a ≠ []) := by
  rw [contribs]
  by_cases hp : patternHitB text a = true
  · simp [hp]
  · have hp' : patternHitB text a = false := by
      revert hp
      cases patternHitB text a <;> simp
    by_cases hx : proxHitB text a = true
    · simp [hp', hx]
    · have hx' : proxHitB text a = false := by
        revert hx
        cases proxHitB text a <;> simp
      simp [hp', hx']

/-- A pattern-matcher hit pins the final confidence at exactly `1.0`:
later, lower fuzzy corroborations cannot overwrite it. -/
theorem conf_one_of_patternHit (t : Option Str) (a : Str)
    (hpat : patternHitB (_normalize_text t) a = true) :
    (detect_allergens t).conf a = some 1 := by
  rw [detect_conf_eq]
  have hmem : (1 : ℚ) ∈ contribs (_normalize_text t) a := by
    simp [contribs, hpat]
  have hne : contribs (_normalize_text t) a ≠ [] := by
    intro h
    rw [h] at hmem
    cases hmem
  cases hc : maxContrib (contribs (_normalize_text t) a) with
  | none =>
    rcases (maxContrib_isSome (contribs (_normalize_text t) a)).mpr hne with h
    rw [hc] at h
    cases h
  | some r =>
    have hle : r ≤ 1 := maxContrib_le 1 _ r (contribs_le_one _ a) hc
    have hge : (1 : ℚ) ≤ r := maxContrib_ge_mem _ r 1 hmem hc
    rw [le_antisymm hle hge]

/-! ## Sorting and membership -/

theorem insertStr_mem (x y : Str) (l : List Str) :
    y ∈ insertStr x l ↔ y = x ∨ y ∈ l := by
  induction l with
  | nil => simp [insertStr]
  | cons z l ih =>
    rw [insertStr]
    by_cases h : lexLt z x = true
    · rw [if_pos h]
      simp only [List.mem_cons, ih]
      tauto
    · rw [if_neg h]
      simp only [List.mem_cons]

theorem sortStr_mem (l : List Str) (x : Str) : x ∈ sortStr l ↔ x ∈ l := by
  rw [sortStr]
  induction l with
  | nil => simp
  | cons y l ih =>
    simp only [List.foldr_cons, insertStr_mem, List.mem_cons, ih]

/-! ## Claim theorems -/

/-- C7: in the result of `detect_allergens`, `direct` is the union of the
Pattern Matcher's and the Fuzzy Matcher's hits, `mayContain` is exactly the
Proximity Matcher's hits, and the confidence recorded for every allergen is
the maximum over all confidences assigned to it by any mechanism that
detected it (`1.0` for a pattern hit, `0.9` for an advisory hit, and the
recorded ratio for each fuzzy hit) — so a `1.0` written by the Pattern
Matcher is never lowered by a later fuzzy score. -/
theorem detect_aggregates_mechanisms (t : Option Str) (a : Str) :
    (a ∈ (detect_allergens t).direct ↔
      (patternHitB (_normalize_text t) a = true ∨ fuzzyHitB (_normalize_text t) a = true)) ∧
    (a ∈ (detect_allergens t).mayContain ↔ proxHitB (_normalize_text t) a = true) ∧
    (detect_allergens t).conf a = maxContrib (contribs (_normalize_text t) a) :=
  ⟨detect_direct_iff t a, detect_mayContain_iff t a, detect_conf_eq t a⟩

/-- C9: every confidence `detect_allergens` records lies in `[0.85, 1]`, the
confidence map has an entry exactly for the allergens in
`direct ∪ mayContain`, and consequently the classifier's `≥ 0.85` floor
(with its `1.0` danger-side and `0.9` warning-side defaults) never excludes
an allergen that detect itself produced. -/
theorem detect_conf_invariant (t : Option Str) (a : Str) :
    (match (detect_allergens t).conf a with
      | some q => FUZZY_THRESHOLD ≤ q ∧ q ≤ 1
      | none => True) ∧
    (((detect_allergens t).conf a).isSome ↔
      (a ∈ (detect_allergens t).direct ∨ a ∈ (detect_allergens t).mayContain)) ∧
    FUZZY_THRESHOLD ≤ ((detect_allergens t).conf a).getD (mkRat 1 1) ∧
    FUZZY_THRESHOLD ≤ ((detect_allergens t).conf a).getD (mkRat 9 10) := by
  have hbound : ∀ q : ℚ, (detect_allergens t).conf a = some q →
      FUZZY_THRESHOLD ≤ q ∧ q ≤ 1 := by
    intro q hq
    rw [detect_conf_eq] at hq
    exact ⟨maxContrib_lb _ _ q (contribs_ge _ a) hq,
      maxContrib_le 1 _ q (contribs_le_one _ a) hq⟩
  refine ⟨?_, ?_, ?_, ?_⟩
  · cases hc : (detect_allergens t).conf a with
    | none => trivial
    | some q => exact hbound q hc
  · rw [detect_conf_eq, maxContrib_isSome, contribs_ne_nil_iff,
      detect_direct_iff, detect_mayContain_iff]
    have hfz : fuzzyHitB (_normalize_text t) a = true ↔
        fuzzyScores (_normalize_text t) a ≠ [] := by
      rw [fuzzyHitB]
      cases fuzzyScores (_normalize_text t) a <;> simp
    rw [hfz]
    tauto
  · cases hc : (detect_allergens t).conf a with
    | none => decide
    | some q => exact (hbound q hc).1
  · cases hc : (detect_allergens t).conf a with
    | none => decide
    | some q => exact (hbound q hc).1

/-- C8: `detect_allergens` is total on absent and empty input: both `None`
and the empty string yield the empty result (empty `direct`, empty
`mayContain`, empty confidence map). -/
theorem detect_empty_input :
    detect_allergens none = ⟨[], [], fun _ => none⟩ ∧
    detect_allergens (some (chars "")) = ⟨[], [], fun _ => none⟩ :=
  ⟨rfl, rfl⟩

/-- C4 counterexample: in `"nuts x_nut"` the keyword `"nut"` occurs as a
whole word bounded by non-alphanumerics (`_` and the edge), yet the recorded
confidence is `6/7` (the fuzzy score of the gram `"nuts"`), not `1.0`: the
`\b`-based pattern search does not fire across an underscore, and the fuzzy
loop keeps the first qualifying gram's score. -/
theorem c4_counterexample :
    (∃ p ∈ ALLERGEN_KEYWORDS, p.1 = chars "nuts" ∧ chars "nut" ∈ p.2) ∧
    occursWholeAlnumBounded (chars "nut") (chars "nuts x_nut") = true ∧
    chars "nuts" ∈ (detect_allergens (some (chars "nuts x_nut"))).direct ∧
    (detect_allergens (some (chars "nuts x_nut"))).conf (chars "nuts") = some (mkRat 6 7) ∧
    (mkRat 6 7 : ℚ) ≠ 1 := by
  refine ⟨by decide, by decide, ?_, ?_, by decide⟩
  · rw [detect_direct_iff]
    right
    decide
  · rw [detect_conf_eq]
    decide

/-- C4 amended: a catalog keyword with a word-bounded occurrence in the
normalized text under the source's `\b` semantics (word characters are
alphanumerics AND underscore) puts its allergen in `direct` with confidence
exactly `1.0`. -/
theorem c4_amended (t : Option Str) (p : Str × List Str) (kw : Str)
    (hp : p ∈ ALLERGEN_KEYWORDS) (hkw : kw ∈ p.2)
    (hocc : reSearchWord kw (_normalize_text t) = true) :
    p.1 ∈ (detect_allergens t).direct ∧ (detect_allergens t).conf p.1 = some 1 := by
  have hpat : patternHitB (_normalize_text t) p.1 = true := by
    rw [patternHitB, List.any_eq_true]
    refine ⟨p, hp, ?_⟩
    simp only [beq_self_eq_true, Bool.true_and, List.any_eq_true]
    exact ⟨kw, hkw, hocc⟩
  exact ⟨(detect_direct_iff t p.1).mpr (Or.inl hpat), conf_one_of_patternHit t p.1 hpat⟩

theorem c4_amended_witness :
    chars "dairy" ∈ (detect_allergens (some (chars "skim milk"))).direct ∧
    (detect_allergens (some (chars "skim milk"))).conf (chars "dairy") = some 1 :=
  c4_amended (some (chars "skim milk"))
    (chars "dairy",
      [chars "milk", chars "butter", chars "cheese", chars "cream",
       chars "yogurt", chars "lactose", chars "whey", chars "casein",
       chars "ghee", chars "yoghurt", chars "dairy", chars "lactate",
       chars "lactalbumin"])
    (chars "milk") (by decide) (by decide) (by decide)

/-- C1 counterexample: on the exact text `"may contain peanuts"`,
`detect_allergens` leaves `mayContain` EMPTY (the window search runs
`\bpeanut\b`, which the plural does not match) and instead places `"nuts"`
in `direct` via the fuzzy match `"peanut" ~ "peanuts"` with confidence
`12/13` — the keyword never appears elsewhere verbatim. -/
theorem c1_counterexample :
    chars "nuts" ∉ (detect_allergens (some (chars "may contain peanuts"))).mayContain ∧
    chars "nuts" ∈ (detect_allergens (some (chars "may contain peanuts"))).direct ∧
    (detect_allergens (some (chars "may contain peanuts"))).conf (chars "nuts") =
      some (mkRat 12 13) := by
  refine ⟨?_, ?_, ?_⟩
  · rw [detect_mayContain_iff]
    decide
  · rw [detect_direct_iff]
    right
    decide
  · rw [detect_conf_eq]
    decide

/-- C1 amended: with the singular phrase `"may contain peanut"` the advisory
window search does fire, so `"nuts"` lands in `mayContain`; but the Pattern
Matcher scans the whole text (advisory clause included), so `"nuts"` is ALSO
in `direct` and its stored confidence is the max `1.0`, not `0.9`. -/
theorem c1_amended :
    chars "nuts" ∈ (detect_allergens (some (chars "may contain peanut"))).mayContain ∧
    chars "nuts" ∈ (detect_allergens (some (chars "may contain peanut"))).direct ∧
    (detect_allergens (some (chars "may contain peanut"))).conf (chars "nuts") = some 1 := by
  refine ⟨?_, ?_, ?_⟩
  · rw [detect_mayContain_iff]
    decide
  · rw [detect_direct_iff]
    left
    decide
  · exact conf_one_of_patternHit _ _ (by decide)

/-- C5 counterexample: `"cod"` (a fish keyword) embedded in the larger,
unrelated, non-keyword word `"code"` DOES trigger a detection: the fuzzy
matcher scores `ratio("cod", "code") = 6/7 ≥ 0.85` and records fish as a
direct hit. -/
theorem c5_counterexample :
    (∀ p ∈ ALLERGEN_KEYWORDS, chars "code" ∉ p.2) ∧
    (∃ p ∈ ALLERGEN_KEYWORDS, p.1 = chars "fish" ∧ chars "cod" ∈ p.2) ∧
    (chars "code").take (chars "cod").length = chars "cod" ∧
    isAlnumN ((chars "code").getD (chars "cod").length 0) = true ∧
    chars "fish" ∈ (detect_allergens (some (chars "code"))).direct ∧
    (detect_allergens (some (chars "code"))).conf (chars "fish") = some (mkRat 6 7) := by
  refine ⟨by decide, by decide, by decide, by decide, ?_, ?_⟩
  · rw [detect_direct_iff]
    right
    decide
  · rw [detect_conf_eq]
    decide

/-- C5 amended: the word-boundary search indeed never fires on an embedded
occurrence, and for the spec's own example the engine stays silent: the text
`"donut"` produces no `"nuts"` detection at all (no gram of it reaches the
`0.85` fuzzy threshold against any nuts keyword). -/
theorem c5_amended :
    chars "nuts" ∉ (detect_allergens (some (chars "donut"))).direct ∧
    chars "nuts" ∉ (detect_allergens (some (chars "donut"))).mayContain := by
  constructor
  · rw [detect_direct_iff]
    decide
  · rw [detect_mayContain_iff]
    decide

/-- C2 counterexample: an allergen present in BOTH `direct` and `mayContain`
(with confidence `1.0`) is classified under the WARNING branch, not DANGER:
`direct_only = direct − may_contain` removes it from the danger
computation. -/
theorem c2_counterexample :
    compute_risk_level (some [chars "nuts"]) [chars "nuts"] [chars "nuts"]
      (some fun a => if a = chars "nuts" then some 1 else none) =
      (RiskLevel.WARNING, [chars "nuts"]) ∧
    RiskLevel.WARNING ≠ RiskLevel.DANGER :=
  ⟨by decide, by decide⟩

/-- C2 amended: an allergen in both `direct` and `mayContain` is excluded
from the DANGER branch (`direct_only = direct − may_contain`); it is never
part of a DANGER matched list, and if it is matched at all the verdict is
WARNING — so it is resolved under the WARNING branch only, never
double-counted. -/
theorem c2_amended (user : Option (List Str)) (d m : List Str)
    (conf : Option (Str → Option ℚ)) (a : Str) (_hd : a ∈ d) (hm : a ∈ m) :
    ((compute_risk_level user d m conf).1 = RiskLevel.DANGER →
      a ∉ (compute_risk_level user d m conf).2) ∧
    (a ∈ (compute_risk_level user d m conf).2 →
      (compute_risk_level user d m conf).1 = RiskLevel.WARNING) := by
  have hnotdh : ∀ (cf : Str → Option ℚ),
      a ∉ sortStr ((dedup ((user.getD []).map lowerStr)).filter fun x =>
        decide (x ∈ d ∧ x ∉ m ∧ FUZZY_THRESHOLD ≤ (cf x).getD (mkRat 1 1))) := by
    intro cf hmem
    rw [sortStr_mem] at hmem
    rcases List.mem_filter.mp hmem with ⟨_, hcond⟩
    rcases of_decide_eq_true hcond with ⟨_, hnm, _⟩
    exact hnm hm
  unfold compute_risk_level
  by_cases h1 : sortStr ((dedup ((user.getD []).map lowerStr)).filter fun x =>
      decide (x ∈ d ∧ x ∉ m ∧
        FUZZY_THRESHOLD ≤ ((conf.getD fun _ => none) x).getD (mkRat 1 1))) ≠ []
  · simp only [if_pos h1]
    exact ⟨fun _ => hnotdh _, fun hmem => absurd hmem (hnotdh _)⟩
  · simp only [if_neg h1]
    by_cases h2 : sortStr ((dedup ((user.getD []).map lowerStr)).filter fun x =>
        decide (x ∈ m ∧
          FUZZY_THRESHOLD ≤ ((conf.getD fun _ => none) x).getD (mkRat 9 10))) ≠ []
    · simp only [if_pos h2]
      exact ⟨fun hdan => absurd hdan (by decide), fun _ => trivial⟩
    · simp only [if_neg h2]
      exact ⟨fun hdan => absurd hdan (by decide), fun hmem => absurd hmem (List.not_mem_nil a)⟩

theorem c2_amended_witness :
    ((compute_risk_level (some [chars "nuts"]) [chars "nuts"] [chars "nuts"]
        (some fun a => if a = chars "nuts" then some 1 else none)).1 = RiskLevel.DANGER →
      chars "nuts" ∉ (compute_risk_level (some [chars "nuts"]) [chars "nuts"] [chars "nuts"]
        (some fun a => if a = chars "nuts" then some 1 else none)).2) ∧
    (chars "nuts" ∈ (compute_risk_level (some [chars "nuts"]) [chars "nuts"] [chars "nuts"]
        (some fun a => if a = chars "nuts" then some 1 else none)).2 →
      (compute_risk_level (some [chars "nuts"]) [chars "nuts"] [chars "nuts"]
        (some fun a => if a = chars "nuts" then some 1 else none)).1 = RiskLevel.WARNING) :=
  c2_amended (some [chars "nuts"]) [chars "nuts"] [chars "nuts"]
    (some fun a => if a = chars "nuts" then some 1 else none) (chars "nuts")
    (by decide) (by decide)

/-- C3: `compute_risk_level` implements the spec's strict priority algorithm:
lowercased profile, `DANGER` on the confidence-filtered intersection with
`direct − mayContain`, else `WARNING` on the confidence-filtered intersection
with `mayContain` (missing confidence defaulting to `0.9`), else `SAFE` with
an empty matched list, matched lists sorted alphabetically. -/
theorem compute_risk_level_meets_spec (user direct mayC : List Str)
    (conf : Str → Option ℚ) :
    compute_risk_level (some user) direct mayC (some conf) =
      spec_classify user direct mayC conf := by
  unfold compute_risk_level spec_classify spec_danger_hits spec_warning_hits
  have hd : ((dedup (user.map lowerStr)).filter fun a =>
        decide (a ∈ direct ∧ a ∉ mayC ∧ FUZZY_THRESHOLD ≤ (conf a).getD (mkRat 1 1))) =
      ((dedup (user.map lowerStr)).filter fun a =>
        decide (a ∈ direct) && !decide (a ∈ mayC)
          && (conf a).all fun q => decide (FUZZY_THRESHOLD ≤ q)) := by
    apply List.filter_congr
    intro a _
    rw [Bool.eq_iff_iff]
    simp only [decide_eq_true_eq, Bool.and_eq_true, Bool.not_eq_true',
      decide_eq_false_iff_not]
    cases hc : conf a with
    | none =>
      simp only [Option.getD_none, Option.all_none]
      have h1 : FUZZY_THRESHOLD ≤ (mkRat 1 1 : ℚ) := by decide
      tauto
    | some q =>
      simp only [Option.getD_some, Option.all_some, decide_eq_true_eq]
      tauto
  simp only [Option.getD_some]
  rw [hd]
  simp only [Bool.decide_and]

/-- C10: `compute_risk_level` tolerates absent inputs: a `None` user-allergen
collection yields `SAFE` with an empty matched list for any detections, and
with a `None` confidence map it still returns a verdict — every missing
entry defaults to `1.0` in the DANGER branch and `0.9` in the WARNING
branch, both of which pass the `0.85` floor, so the confidence filters
vanish. -/
theorem classify_tolerates_absent_inputs :
    (∀ (d m : List Str) (c : Option (Str → Option ℚ)),
      compute_risk_level none d m c = (RiskLevel.SAFE, [])) ∧
    (∀ u d m : List Str,
      compute_risk_level (some u) d m none =
        (if sortStr ((dedup (u.map lowerStr)).filter fun a =>
            decide (a ∈ d ∧ a ∉ m)) ≠ [] then
          (RiskLevel.DANGER, sortStr ((dedup (u.map lowerStr)).filter fun a =>
            decide (a ∈ d ∧ a ∉ m)))
        else if sortStr ((dedup (u.map lowerStr)).filter fun a =>
            decide (a ∈ m)) ≠ [] then
          (RiskLevel.WARNING, sortStr ((dedup (u.map lowerStr)).filter fun a =>
            decide (a ∈ m)))
        else (RiskLevel.SAFE, []))) := by
  constructor
  · intro d m c
    rfl
  · intro u d m
    unfold compute_risk_level
    have hd : ((dedup (u.map lowerStr)).filter fun a =>
          decide (a ∈ d ∧ a ∉ m ∧ FUZZY_THRESHOLD ≤
            ((((none : Option (Str → Option ℚ)).getD fun _ => none) a).getD (mkRat 1 1)))) =
        ((dedup (u.map lowerStr)).filter fun a => decide (a ∈ d ∧ a ∉ m)) := by
      apply List.filter_congr
      intro a _
      rw [Bool.eq_iff_iff]
      simp only [decide_eq_true_eq, Option.getD_none]
      have h1 : FUZZY_THRESHOLD ≤ (mkRat 1 1 : ℚ) := by decide
      tauto
    have hw : ((dedup (u.map lowerStr)).filter fun a =>
          decide (a ∈ m ∧ FUZZY_THRESHOLD ≤
            ((((none : Option (Str → Option ℚ)).getD fun _ => none) a).getD (mkRat 9 10)))) =
        ((dedup (u.map lowerStr)).filter fun a => decide (a ∈ m)) := by
      apply List.filter_congr
      intro a _
      rw [Bool.eq_iff_iff]
      simp only [decide_eq_true_eq, Option.getD_none]
      have h1 : FUZZY_THRESHOLD ≤ (mkRat 9 10 : ℚ) := by decide
      tauto
    simp only [Option.getD_none, Option.getD_some] at hd hw ⊢
    rw [hd, hw]

/-- C6 counterexample: normalization returns `"a,b"` unchanged — the comma,
a run of non-alphanumeric characters, is NOT collapsed to a space.  Only
whitespace runs are collapsed. -/
theorem c6_counterexample :
    _normalize_text (some (chars "a,b")) = chars "a,b" ∧
    ∃ c ∈ _normalize_text (some (chars "a,b")), isAlnumN c = false ∧ c ≠ 32 :=
  ⟨by decide, by decide⟩

theorem toLowerN_idem (c : Nat) : toLowerN (toLowerN c) = toLowerN c := by
  unfold toLowerN
  by_cases h : 65 ≤ c ∧ c ≤ 90
  · simp only [if_pos h]
    rw [if_neg (by omega)]
  · simp only [if_neg h]

theorem splitOnSepAux_words (sep : Nat → Bool) (s : Str) :
    ∀ acc : Str, (∀ c ∈ acc, sep c = false) →
      ∀ w ∈ splitOnSepAux sep s acc, w ≠ [] ∧ ∀ c ∈ w, sep c = false := by
  induction s with
  | nil =>
    intro acc hacc w hw
    rw [splitOnSepAux] at hw
    by_cases ha : acc.isEmpty
    · rw [if_pos ha] at hw
      cases hw
    · rw [if_neg ha] at hw
      rcases List.mem_singleton.mp hw with rfl
      refine ⟨?_, fun c hc => hacc c (List.mem_reverse.mp hc)⟩
      intro h
      exact ha (by rw [List.isEmpty_iff, ← List.reverse_eq_nil_iff, h])
  | cons ch rest ih =>
    intro acc hacc w hw
    rw [splitOnSepAux] at hw
    by_cases hsep : sep ch = true
    · rw [if_pos hsep] at hw
      by_cases ha : acc.isEmpty
      · rw [if_pos ha] at hw
        exact ih [] (by simp) w hw
      · rw [if_neg ha] at hw
        rcases List.mem_cons.mp hw with rfl | hw'
        · refine ⟨?_, fun c hc => hacc c (List.mem_reverse.mp hc)⟩
          intro h
          exact ha (by rw [List.isEmpty_iff, ← List.reverse_eq_nil_iff, h])
        · exact ih [] (by simp) w hw'
    · rw [if_neg hsep] at hw
      refine ih (ch :: acc) ?_ w hw
      intro c hc
      rcases List.mem_cons.mp hc with rfl | hc'
      · revert hsep
        cases sep c <;> simp
      · exact hacc c hc'

theorem splitOnSepAux_chars (sep : Nat → Bool) (s : Str) :
    ∀ acc : Str, ∀ w ∈ splitOnSepAux sep s acc, ∀ c ∈ w, c ∈ s ∨ c ∈ acc := by
  induction s with
  | nil =>
    intro acc w hw c hc
    rw [splitOnSepAux] at hw
    by_cases ha : acc.isEmpty
    · rw [if_pos ha] at hw
      cases hw
    · rw [if_neg ha] at hw
      rcases List.mem_singleton.mp hw with rfl
      exact Or.inr (List.mem_reverse.mp hc)
  | cons ch rest ih =>
    intro acc w hw c hc
    rw [splitOnSepAux] at hw
    by_cases hsep : sep ch = true
    · rw [if_pos hsep] at hw
      by_cases ha : acc.isEmpty
      · rw [if_pos ha] at hw
        rcases ih [] w hw c hc with h | h
        · exact Or.inl (List.mem_cons_of_mem _ h)
        · cases h
      · rw [if_neg ha] at hw
        rcases List.mem_cons.mp hw with rfl | hw'
        · exact Or.inr (List.mem_reverse.mp hc)
        · rcases ih [] w hw' c hc with h | h
          · exact Or.inl (List.mem_cons_of_mem _ h)
          · cases h
    · rw [if_neg hsep] at hw
      rcases ih (ch :: acc) w hw c hc with h | h
      · exact Or.inl (List.mem_cons_of_mem _ h)
      · rcases List.mem_cons.mp h with rfl | h'
        · exact Or.inl (List.mem_cons_self _ _)
        · exact Or.inr h'

theorem joinSpace_chars (ws : List Str) : ∀ c ∈ joinSpace ws, c = 32 ∨ ∃ w ∈ ws, c ∈ w := by
  induction ws with
  | nil =>
    intro c hc
    cases hc
  | cons w ws ih =>
    cases ws with
    | nil =>
      intro c hc
      exact Or.inr ⟨w, List.mem_singleton_self w, hc⟩
    | cons w2 ws2 =>
      intro c hc
      rw [show joinSpace (w :: w2 :: ws2) = w ++ 32 :: joinSpace (w2 :: ws2) from rfl] at hc
      rcases List.mem_append.mp hc with h | h
      · exact Or.inr ⟨w, List.mem_cons_self _ _, h⟩
      · rcases List.mem_cons.mp h with rfl | h'
        · exact Or.inl rfl
        · rcases ih c h' with h32 | ⟨w', hw', hcw'⟩
          · exact Or.inl h32
          · exact Or.inr ⟨w', List.mem_cons_of_mem _ hw', hcw'⟩

theorem mem_of_head?_eq (l : Str) (c : Nat) (h : l.head? = some c) : c ∈ l := by
  cases l with
  | nil => cases h
  | cons x l =>
    rw [List.head?_cons] at h
    cases h
    exact List.mem_cons_self _ _

theorem mem_of_getLast?_eq (l : Str) (c : Nat) (h : l.getLast? = some c) : c ∈ l := by
  rcases List.mem_getLast?_eq_getLast (by rw [h]; rfl : c ∈ l.getLast?) with ⟨hne, rfl⟩
  exact List.getLast_mem hne

theorem joinSpace_ne_nil (w : Str) (ws : List Str) (hw : w ≠ []) :
    joinSpace (w :: ws) ≠ [] := by
  cases ws with
  | nil => exact hw
  | cons w2 ws2 =>
    rw [show joinSpace (w :: w2 :: ws2) = w ++ 32 :: joinSpace (w2 :: ws2) from rfl]
    simp

theorem joinSpace_head (w : Str) (ws : List Str) (hw : w ≠ []) :
    (joinSpace (w :: ws)).head? = w.head? := by
  cases ws with
  | nil => rfl
  | cons w2 ws2 =>
    rw [show joinSpace (w :: w2 :: ws2) = w ++ 32 :: joinSpace (w2 :: ws2) from rfl]
    cases w with
    | nil => exact absurd rfl hw
    | cons c w' => rfl

theorem joinSpace_last (ws : List Str) (h : ∀ w ∈ ws, w ≠ []) :
    ∀ c : Nat, (joinSpace ws).getLast? = some c → ∃ w ∈ ws, c ∈ w := by
  induction ws with
  | nil =>
    intro c hc
    cases hc
  | cons w ws ih =>
    cases ws with
    | nil =>
      intro c hc
      exact ⟨w, List.mem_singleton_self w, mem_of_getLast?_eq w c hc⟩
    | cons w2 ws2 =>
      intro c hc
      rw [show joinSpace (w :: w2 :: ws2) = w ++ 32 :: joinSpace (w2 :: ws2) from rfl] at hc
      rw [List.getLast?_append_of_ne_nil _ (by simp)] at hc
      have hjs : joinSpace (w2 :: ws2) ≠ [] :=
        joinSpace_ne_nil w2 ws2 (h w2 (List.mem_cons_of_mem _ (List.mem_cons_self _ _)))
      rw [show (32 :: joinSpace (w2 :: ws2) : Str) = [32] ++ joinSpace (w2 :: ws2) from rfl,
        List.getLast?_append_of_ne_nil _ hjs] at hc
      rcases ih (fun x hx => h x (List.mem_cons_of_mem _ hx)) c hc with ⟨w', hw', hcw'⟩
      exact ⟨w', List.mem_cons_of_mem _ hw', hcw'⟩

theorem chain_noDouble_of_noSpace (w : Str) (h : ∀ c ∈ w, c ≠ 32) :
    List.Chain' (fun c d => ¬(c = 32 ∧ d = 32)) w := by
  induction w with
  | nil => simp
  | cons c w ih =>
    rw [List.chain'_cons']
    refine ⟨?_, ih fun x hx => h x (List.mem_cons_of_mem _ hx)⟩
    intro y _ hy
    exact h c (List.mem_cons_self _ _) hy.1

theorem joinSpace_chain (ws : List Str)
    (h : ∀ w ∈ ws, w ≠ [] ∧ ∀ c ∈ w, c ≠ 32) :
    List.Chain' (fun c d => ¬(c = 32 ∧ d = 32)) (joinSpace ws) := by
  induction ws with
  | nil => simp [joinSpace]
  | cons w ws ih =>
    cases ws with
    | nil =>
      exact chain_noDouble_of_noSpace w (h w (List.mem_singleton_self w)).2
    | cons w2 ws2 =>
      rw [show joinSpace (w :: w2 :: ws2) = w ++ 32 :: joinSpace (w2 :: ws2) from rfl]
      rw [List.chain'_append]
      refine ⟨chain_noDouble_of_noSpace w (h w (List.mem_cons_self _ _)).2, ?_, ?_⟩
      · rw [List.chain'_cons']
        refine ⟨?_, ih fun x hx => h x (List.mem_cons_of_mem _ hx)⟩
        intro y hy hcontra
        have hhead : (joinSpace (w2 :: ws2)).head? = w2.head? :=
          joinSpace_head w2 ws2 (h w2 (List.mem_cons_of_mem _ (List.mem_cons_self _ _))).1
        rw [hhead] at hy
        have hyw2 : y ∈ w2 := mem_of_head?_eq w2 y hy
        exact (h w2 (List.mem_cons_of_mem _ (List.mem_cons_self _ _))).2 y hyw2 hcontra.2
      · intro x hx y hy
        rw [List.head?_cons] at hy
        cases hy
        intro hcontra
        exact (h w (List.mem_cons_self _ _)).2 x (mem_of_getLast?_eq w x hx) hcontra.1

/-- C6 amended: `_normalize_text` produces a single lowercase string in which
every run of WHITESPACE has been collapsed to a single space and the ends are
trimmed; non-alphanumeric characters that are not whitespace survive (see
the counterexample). -/
theorem normalize_collapses_whitespace (s : Str) :
    (∀ c ∈ _normalize_text (some s), toLowerN c = c) ∧
    (∀ c ∈ _normalize_text (some s), isPySpace c = true → c = 32) ∧
    List.Chain' (fun c d => ¬(c = 32 ∧ d = 32)) (_normalize_text (some s)) ∧
    (_normalize_text (some s)).head? ≠ some 32 ∧
    (_normalize_text (some s)).getLast? ≠ some 32 := by
  by_cases hs : s.isEmpty
  · rw [show _normalize_text (some s) = [] from by rw [_normalize_text, if_pos hs]]
    simp
  · rw [show _normalize_text (some s) = joinSpace (splitOnSep isPySpace (lowerStr s)) from by
      rw [_normalize_text, if_neg hs]]
    have hwords := splitOnSepAux_words isPySpace (lowerStr s) [] (by simp)
    have hchars := splitOnSepAux_chars isPySpace (lowerStr s) []
    have hwords' : ∀ w ∈ splitOnSep isPySpace (lowerStr s), w ≠ [] ∧ ∀ c ∈ w, c ≠ 32 := by
      intro w hw
      refine ⟨(hwords w hw).1, ?_⟩
      intro c hc hc32
      have := (hwords w hw).2 c hc
      rw [hc32] at this
      simp [isPySpace] at this
    refine ⟨?_, ?_, ?_, ?_, ?_⟩
    · intro c hc
      rcases joinSpace_chars _ c hc with rfl | ⟨w, hw, hcw⟩
      · rfl
      · rcases hchars w hw c hcw with hcs | hca
        · rcases List.mem_map.mp hcs with ⟨c0, _, rfl⟩
          exact toLowerN_idem c0
        · cases hca
    · intro c hc hspace
      rcases joinSpace_chars _ c hc with rfl | ⟨w, hw, hcw⟩
      · rfl
      · have := (hwords w hw).2 c hcw
        rw [hspace] at this
        cases this
    · exact joinSpace_chain _ hwords'
    · cases hsp : splitOnSep isPySpace (lowerStr s) with
      | nil => simp [joinSpace]
      | cons w ws =>
        have hw : w ≠ [] := (hwords' w (by rw [hsp]; exact List.mem_cons_self _ _)).1
        rw [joinSpace_head w ws hw]
        intro hcontra
        exact (hwords' w (by rw [hsp]; exact List.mem_cons_self _ _)).2 32
          (mem_of_head?_eq w 32 hcontra) rfl
    · intro hcontra
      rcases joinSpace_last (splitOnSep isPySpace (lowerStr s))
          (fun w hw => (hwords' w hw).1) 32 hcontra with ⟨w, hw, hcw⟩
      exact (hwords' w hw).2 32 hcw rfl
